import Mathlib

/-!
Shallow embedding of `src/main.rs` of the `file-searcher` repository.

The program is an interactive console utility: it reads a search root, a
name fragment and a whitespace-separated extension list, validates them,
and then recursively walks the directory tree rooted at the search root,
reporting every entry that satisfies the match predicate together with the
path, elapsed time and (when metadata can be read) the size in megabytes.

Modelling conventions:
* Rust `String`s are Lean `String`s; `to_lowercase` is modelled by a
  character-wise `lower` (Unicode multi-character expansions are out of
  scope for the claims considered here).
* An `OsStr` component as produced by `Path::file_stem` / `Path::extension`
  is `Option (Option String)`: `none` means the component is absent,
  `some none` means it is present but not valid UTF-8, `some (some s)` is
  the UTF-8 string `s`.
* The filesystem is a tree of `Entry` values.  A directory whose
  `read_dir` fails (permission denied, removed mid-walk, …) is the
  constructor `dirUnreadable`; `other` is an entry for which both
  `path.is_dir()` and `path.is_file()` are false (e.g. a broken symlink).
  Every entry carries the result of `std::fs::metadata(path).len()` as
  `size : Option Nat` (`none` = the metadata read fails).
* Timing (`Instant`) is irrelevant to every claim and is dropped; the
  emitted record keeps path and optional size.
* `metadata.len() as f64 / 1e6` is modelled exactly over `ℚ`; the `f64`
  arithmetic is exact for all sizes below `2^53` bytes.
-/

namespace FileSearcher

/-- Rust `str::to_lowercase`, modelled character-wise. -/
def lower (s : String) : String := ⟨s.data.map Char.toLower⟩

/-- Rust `haystack.contains(pattern)`: substring containment. -/
def strContains (hay pat : String) : Bool := decide (pat.data <:+: hay.data)

/-- `const FILE_SIZE_BASE: f64 = 1e6;` — the divisor turning bytes into
(decimal) megabytes. -/
def FILE_SIZE_BASE : ℚ := 1000000

/-- Rust `str::trim`: strip leading and trailing whitespace, modelled
character-wise over the string's character list. -/
def trim (s : String) : String :=
  ⟨((s.data.dropWhile Char.isWhitespace).reverse.dropWhile
      Char.isWhitespace).reverse⟩

/-- `get_input`: reads a line and trims it.  Console I/O is dropped; the
raw line is the argument. -/
def get_input (raw_line : String) : String := trim raw_line

/-- Worker for `split_whitespace`: `acc` holds the current word reversed. -/
def splitWsAux : List Char → List Char → List String
  | [], acc => if acc.isEmpty then [] else [⟨acc.reverse⟩]
  | c :: rest, acc =>
      if c.isWhitespace then
        if acc.isEmpty then splitWsAux rest []
        else ⟨acc.reverse⟩ :: splitWsAux rest []
      else splitWsAux rest (c :: acc)

/-- Rust `str::split_whitespace`: the maximal whitespace-free words of the
string, in order; it never yields an empty token. -/
def split_whitespace (s : String) : List String := splitWsAux s.data []

/-- `get_extensions`: split the entered extension list on whitespace and
lowercase each token. -/
def get_extensions (extensions_string : String) : List String :=
  (split_whitespace extensions_string).map lower

/-- `get_search_data`: obtain the three raw lines, trim each, validate
(root non-empty, and name or extension set non-empty), and on success
return `(search_path.to_lowercase(), search_name.to_lowercase(),
extensions)` exactly as the source does. -/
def get_search_data (raw_path raw_name raw_exts : String) :
    Option (String × String × List String) :=
  let search_path := get_input raw_path
  let search_name := get_input raw_name
  let extensions := get_extensions (get_input raw_exts)
  if search_path = "" ∨ (search_name = "" ∧ extensions = []) then none
  else some (lower search_path, lower search_name, extensions)

/-- An `Option<&OsStr>` component as returned by `Path::file_stem` or
`Path::extension`: `none` = absent, `some none` = present but not valid
UTF-8, `some (some s)` = the UTF-8 string `s`. -/
abbrev OsComp : Type := Option (Option String)

/-- `os_str_to_str`: `os_str.unwrap_or_default().to_str().unwrap_or_default().to_lowercase()`
— an absent or non-UTF-8 component collapses to the empty string. -/
def os_str_to_str (c : OsComp) : String := lower ((c.getD (some "")).getD "")

/-- A filesystem entry as seen by the walk.  `name` is the entry's file
name (the last path component), `stem`/`ext2` are what `file_stem` /
`extension` report, `size` is the `metadata.len()` result (`none` =
metadata read fails). -/
inductive Entry : Type where
  | file (name : String) (stem ext2 : OsComp) (size : Option Nat)
  | dir (name : String) (stem ext2 : OsComp) (size : Option Nat)
      (contents : List Entry)
  | dirUnreadable (name : String) (stem ext2 : OsComp) (size : Option Nat)
  | other (name : String) (stem ext2 : OsComp) (size : Option Nat)

/-- One reported match: the line printed by `print_path_info` carries the
path and, when the metadata read succeeded, the size in megabytes. -/
structure MatchOutput where
  path : String
  sizeMB : Option ℚ
deriving DecidableEq

/-- `print_path_info`: emit the path and, if `std::fs::metadata` succeeds,
`metadata.len() as f64 / FILE_SIZE_BASE` megabytes; on failure the size is
omitted. -/
def print_path_info (path : String) (size : Option Nat) : MatchOutput :=
  { path := path
    sizeMB := size.map (fun bytes => (bytes : ℚ) / FILE_SIZE_BASE) }

/-- `object_was_found`: increments the result counter and prints the
match.  The counter increment is one-per-emitted-record, so the counter is
recovered as the length of the output list (see `search_files_run`). -/
def object_was_found (path : String) (size : Option Nat) : MatchOutput :=
  print_path_info path size

mutual

/-- Body of the `for entry in files` loop of `search_files`, for one
entry.  Mirrors the source branch for branch:
directories are match-checked (`no_extensions && file_name.contains(filename)`)
and then recursed into unconditionally; non-directories first try
`empty_filename && extensions.contains(&file_extension)`, then
`path.is_file() && file_name.contains(filename)` guarded by
`(!no_extensions && extensions.contains(&file_extension)) || no_extensions`. -/
def searchEntry (search_dir filename : String) (extensions : List String) :
    Entry → List MatchOutput
  | .file name stem ext2 size =>
      let path := search_dir ++ "/" ++ name
      let file_name := os_str_to_str stem
      let file_extension := os_str_to_str ext2
      if filename = "" ∧ file_extension ∈ extensions then
        [object_was_found path size]
      else if strContains file_name filename ∧
          ((¬ extensions = [] ∧ file_extension ∈ extensions) ∨
            extensions = []) then
        [object_was_found path size]
      else []
  | .dir name stem _ext2 size contents =>
      let path := search_dir ++ "/" ++ name
      let file_name := os_str_to_str stem
      (if extensions = [] ∧ strContains file_name filename then
        [object_was_found path size]
      else []) ++ searchList path filename extensions contents
  | .dirUnreadable name stem _ext2 size =>
      let path := search_dir ++ "/" ++ name
      let file_name := os_str_to_str stem
      if extensions = [] ∧ strContains file_name filename then
        [object_was_found path size]
      else []
  | .other name _stem ext2 size =>
      let path := search_dir ++ "/" ++ name
      let file_extension := os_str_to_str ext2
      if filename = "" ∧ file_extension ∈ extensions then
        [object_was_found path size]
      else []

/-- The `for entry in files` loop of `search_files` over a directory
listing, in listing order. -/
def searchList (search_dir filename : String) (extensions : List String) :
    List Entry → List MatchOutput
  | [] => []
  | e :: rest =>
      searchEntry search_dir filename extensions e ++
        searchList search_dir filename extensions rest

end

/-- `search_files` applied to the search root: `read_dir(search_dir)`
either fails (`none`: the walk returns immediately with nothing reported)
or yields the root listing. -/
def search_files (search_dir filename : String) (extensions : List String)
    (listing : Option (List Entry)) : List MatchOutput :=
  match listing with
  | none => []
  | some entries => searchList search_dir filename extensions entries

/-- The outcome of one iteration of the `main` loop: either the query was
rejected (diagnostic printed, loop restarts at the first prompt, no
directory visited) or a search ran, with its final `results_count` and the
stream of reported matches. -/
inductive IterResult : Type where
  | rejected : IterResult
  | searched (results_count : Nat) (outputs : List MatchOutput) : IterResult
deriving DecidableEq

/-- One iteration of the `main` loop: build the query from the three raw
input lines; on `None` restart the loop; otherwise run `search_files` on
the root listing.  `results_count` is incremented exactly once per
`object_was_found`, i.e. once per emitted record. -/
def main_iteration (raw_path raw_name raw_exts : String)
    (listing : Option (List Entry)) : IterResult :=
  match get_search_data raw_path raw_name raw_exts with
  | none => .rejected
  | some (root, nm, exts) =>
      .searched (search_files root nm exts listing).length
        (search_files root nm exts listing)

/-- Unix absoluteness of a printed path: it starts with a separator. -/
def isAbsolutePath (s : String) : Bool :=
  match s.data with
  | [] => false
  | c :: _ => c = '/'

/-- A chain of `k` nested readable directories, each named `"d"`, with the
given entry at the bottom: exercises unbounded recursion depth. -/
def nest : Nat → Entry → Entry
  | 0, e => e
  | k + 1, e => .dir "d" (some (some "d")) none none [nest k e]

/-- The walk's search-dir argument after descending `k` levels of the
`nest` chain. -/
def deepPath : String → Nat → String
  | p, 0 => p
  | p, k + 1 => deepPath (p ++ "/" ++ "d") k

/-! ### Helper lemmas -/

lemma lower_eq_empty_iff (s : String) : lower s = "" ↔ s = "" := by
  constructor
  · intro h
    have hd : s.data.map Char.toLower = ([] : List Char) := congrArg String.data h
    exact String.ext (List.map_eq_nil_iff.mp hd)
  · rintro rfl; rfl

lemma strContains_eq_true_iff (hay pat : String) :
    strContains hay pat = true ↔ pat.data <:+: hay.data := by
  simp [strContains]

lemma strContains_empty_pat (s : String) : strContains s "" = true := by
  simp [strContains]

lemma strContains_empty_hay {pat : String} (h : pat ≠ "") :
    strContains "" pat = false := by
  simp only [strContains, decide_eq_false_iff_not]
  intro hinf
  exact h (String.ext (List.infix_nil.mp hinf))

lemma ne_empty_of_mem_splitWsAux :
    ∀ (l acc : List Char), ∀ t ∈ splitWsAux l acc, t ≠ "" := by
  intro l
  induction l with
  | nil =>
      intro acc t ht
      simp only [splitWsAux] at ht
      split at ht
      · cases ht
      · next hacc =>
          rw [List.mem_singleton] at ht
          subst ht
          intro hc
          have : acc.reverse = ([] : List Char) := congrArg String.data hc
          simp only [List.reverse_eq_nil_iff] at this
          simp [this] at hacc
  | cons c rest ih =>
      intro acc t ht
      simp only [splitWsAux] at ht
      split at ht
      · split at ht
        · exact ih [] t ht
        · next hacc =>
            rcases List.mem_cons.mp ht with rfl | hmem
            · intro hc
              have : acc.reverse = ([] : List Char) := congrArg String.data hc
              simp only [List.reverse_eq_nil_iff] at this
              simp [this] at hacc
            · exact ih [] t hmem
      · exact ih (c :: acc) t ht

lemma ne_empty_of_mem_get_extensions {t s : String}
    (h : t ∈ get_extensions s) : t ≠ "" := by
  simp only [get_extensions, split_whitespace, List.mem_map] at h
  obtain ⟨w, hw, rfl⟩ := h
  intro hcontra
  exact ne_empty_of_mem_splitWsAux s.data [] w hw
    ((lower_eq_empty_iff w).mp hcontra)

lemma get_search_data_eq_some {p n e root nm : String} {exts : List String}
    (h : get_search_data p n e = some (root, nm, exts)) :
    root = lower (trim p) ∧ nm = lower (trim n) ∧
      exts = get_extensions (get_input e) ∧ trim p ≠ "" ∧
      ¬(trim n = "" ∧ get_extensions (get_input e) = []) := by
  simp only [get_search_data, get_input] at h
  split at h
  · exact absurd h (by simp)
  · next hcond =>
      push_neg at hcond
      simp only [Option.some.injEq, Prod.mk.injEq] at h
      obtain ⟨h1, h2, h3⟩ := h
      exact ⟨h1.symm, h2.symm, h3.symm, hcond.1, fun hc => (hcond.2 hc.1) hc.2⟩

lemma get_search_data_validated {p n e root nm : String} {exts : List String}
    (h : get_search_data p n e = some (root, nm, exts)) :
    nm ≠ "" ∨ exts ≠ [] := by
  obtain ⟨-, hnm, hexts, -, hval⟩ := get_search_data_eq_some h
  by_cases hn : trim n = ""
  · right
    intro hc
    exact hval ⟨hn, hexts ▸ hc⟩
  · left
    rw [hnm]
    intro hc
    exact hn ((lower_eq_empty_iff (trim n)).mp hc)

lemma isAbsolutePath_append (a b : String) (ha : a ≠ "") :
    isAbsolutePath (a ++ b) = isAbsolutePath a := by
  have hd : a.data ≠ [] := fun h => ha (String.ext h)
  unfold isAbsolutePath
  rw [String.data_append]
  cases hA : a.data with
  | nil => exact absurd hA hd
  | cons c t => rfl

lemma searchList_append (d f : String) (x : List String) (as bs : List Entry) :
    searchList d f x (as ++ bs) =
      searchList d f x as ++ searchList d f x bs := by
  induction as with
  | nil => simp [searchList]
  | cons a rest ih => simp [searchList, ih]

lemma path_of_mem_singleton {o : MatchOutput} {pth : String} {sz : Option Nat}
    (h : o ∈ [object_was_found pth sz]) : o.path = pth := by
  rw [List.mem_singleton] at h
  subst h
  rfl

mutual

/-- Every record emitted below a directory carries a path strictly
extending that directory's path by a separator. -/
theorem searchEntry_path_shape (d f : String) (x : List String) (e : Entry) :
    ∀ o ∈ searchEntry d f x e, ∃ s : String, o.path = d ++ "/" ++ s := by
  cases e with
  | file name stem ext2 size =>
      intro o ho
      simp only [searchEntry] at ho
      split at ho
      · exact ⟨name, path_of_mem_singleton ho⟩
      · split at ho
        · exact ⟨name, path_of_mem_singleton ho⟩
        · cases ho
  | dir name stem ext2 size contents =>
      intro o ho
      simp only [searchEntry] at ho
      rcases List.mem_append.mp ho with h1 | h2
      · split at h1
        · exact ⟨name, path_of_mem_singleton h1⟩
        · cases h1
      · obtain ⟨s, hs⟩ :=
          searchList_path_shape (d ++ "/" ++ name) f x contents o h2
        exact ⟨name ++ ("/" ++ s), by
          rw [hs, String.append_assoc, String.append_assoc]⟩
  | dirUnreadable name stem ext2 size =>
      intro o ho
      simp only [searchEntry] at ho
      split at ho
      · exact ⟨name, path_of_mem_singleton ho⟩
      · cases ho
  | other name stem ext2 size =>
      intro o ho
      simp only [searchEntry] at ho
      split at ho
      · exact ⟨name, path_of_mem_singleton ho⟩
      · cases ho

theorem searchList_path_shape (d f : String) (x : List String)
    (es : List Entry) :
    ∀ o ∈ searchList d f x es, ∃ s : String, o.path = d ++ "/" ++ s := by
  cases es with
  | nil => intro o ho; cases ho
  | cons e rest =>
      intro o ho
      simp only [searchList] at ho
      rcases List.mem_append.mp ho with h1 | h2
      · exact searchEntry_path_shape d f x e o h1
      · exact searchList_path_shape d f x rest o h2

end

/-! ### Claims -/

/-- C1: for every validated query and every file entry visited by the walk
(stem and extension lowercased by `os_str_to_str`): if the name fragment is
empty, the file is reported iff its extension is a member of the extension
set; if the name fragment is non-empty, the file is reported iff its stem
contains the fragment as a substring and (the extension set is empty or its
extension is a member of the set). -/
theorem c1_file_match_rule (p n e dp root nm name : String)
    (exts : List String) (stem ext2 : OsComp) (size : Option Nat)
    (hq : get_search_data p n e = some (root, nm, exts)) :
    searchEntry dp nm exts (.file name stem ext2 size) ≠ [] ↔
      (if nm = "" then os_str_to_str ext2 ∈ exts
       else strContains (os_str_to_str stem) nm = true ∧
         (exts = [] ∨ os_str_to_str ext2 ∈ exts)) := by
  have hv := get_search_data_validated hq
  by_cases hnm : nm = ""
  · have hx : exts ≠ [] := by
      rcases hv with h | h
      · exact absurd hnm h
      · exact h
    subst hnm
    by_cases hm : os_str_to_str ext2 ∈ exts <;>
      simp [searchEntry, hm, hx, strContains_empty_pat]
  · by_cases hc : strContains (os_str_to_str stem) nm = true <;>
      by_cases hx : exts = [] <;>
      by_cases hm : os_str_to_str ext2 ∈ exts <;>
      simp [searchEntry, hnm, hc, hx, hm]

theorem c1_file_match_rule_witness :
    searchEntry "/t" "rep" [] (.file "report.txt" (some (some "Report"))
      (some (some "txt")) none) ≠ [] :=
  (c1_file_match_rule "/t" "Rep" "" "/t" "/t" "rep" "report.txt" []
        (some (some "Report")) (some (some "txt")) none (by decide)).mpr
    (by decide)

/-- C2: for every query and every directory entry visited by the walk, the
directory is reported iff the extension set is empty and the directory's
stem (lowercased) contains the name fragment as a substring; a directory is
never reported on the basis of an extension (the right-hand side does not
mention the extension component at all). -/
theorem c2_dir_match_rule (dp f name : String) (exts : List String)
    (stem ext2 : OsComp) (size : Option Nat) (contents : List Entry) :
    object_was_found (dp ++ "/" ++ name) size ∈
        searchEntry dp f exts (.dir name stem ext2 size contents) ↔
      (exts = [] ∧ strContains (os_str_to_str stem) f = true) := by
  constructor
  · intro h
    simp only [searchEntry] at h
    rcases List.mem_append.mp h with h1 | h2
    · split at h1
      · next hcond => exact hcond
      · cases h1
    · exfalso
      obtain ⟨s, hs⟩ :=
        searchList_path_shape (dp ++ "/" ++ name) f exts contents
          (object_was_found (dp ++ "/" ++ name) size) h2
      have hlen := congrArg String.length hs
      have hsep : ("/" : String).length = 1 := rfl
      simp only [object_was_found, print_path_info, String.length_append]
        at hlen
      omega
  · rintro ⟨h1, h2⟩
    simp [searchEntry, h1, h2]

/-- C3: the walk recurses into every subdirectory unconditionally and with
no depth limit — for every depth `k` the output produced at the bottom of a
`k`-deep chain of directories is (in order) part of the whole walk's
output, for every query, including queries under which every directory of
the chain itself matches; and a matched directory (extension set empty,
fragment contained in its stem) is itself still reported while its
contents continue to be searched. -/
theorem c3_unconditional_recursion (k : Nat) (p f : String)
    (exts : List String) (e : Entry) :
    (searchEntry (deepPath p k) f exts e).Sublist
        (searchEntry p f exts (nest k e)) ∧
    (exts = [] → strContains "d" f = true →
      object_was_found (p ++ "/" ++ "d") none ∈
        searchEntry p f exts (nest (k + 1) e)) := by
  constructor
  · induction k generalizing p with
    | zero => exact List.Sublist.refl _
    | succ m ih =>
        have h1 := ih (p ++ "/" ++ "d")
        have h2 : (searchEntry (p ++ "/" ++ "d") f exts (nest m e)).Sublist
            (searchEntry p f exts (nest (m + 1) e)) := by
          simp only [nest, searchEntry, searchList, List.append_nil]
          exact List.sublist_append_right _ _
        simp only [deepPath]
        exact h1.trans h2
  · intro hx hc
    have hd : os_str_to_str (some (some "d")) = "d" := rfl
    simp only [nest, searchEntry]
    refine List.mem_append_left _ ?_
    rw [if_pos ⟨hx, by rw [hd]; exact hc⟩]
    exact List.mem_singleton.mpr rfl

theorem c3_unconditional_recursion_witness :
    object_was_found ("/r" ++ "/" ++ "d") none ∈
      searchEntry "/r" "d" [] (nest 2 (.file "d.txt" (some (some "d"))
        (some (some "txt")) none)) :=
  (c3_unconditional_recursion 1 "/r" "d" []
      (.file "d.txt" (some (some "d")) (some (some "txt")) none)).2 rfl
    (by decide)

/-- C4: a directory whose listing fails contributes at most its own match
record (nothing from its subtree is reported and no error output exists in
the model), the walk's output around it is exactly the siblings' output
(the walk continues), and whatever an unreadable directory reports is an
in-order part of what the same directory would report were it readable —
no listing failure aborts the search. -/
theorem c4_unreadable_dir_skipped (dp f name : String) (exts : List String)
    (stem ext2 : OsComp) (size : Option Nat) (contents : List Entry)
    (xs ys : List Entry) :
    searchList dp f exts (xs ++ .dirUnreadable name stem ext2 size :: ys) =
        searchList dp f exts xs ++
          (searchEntry dp f exts (.dirUnreadable name stem ext2 size) ++
            searchList dp f exts ys) ∧
    (searchEntry dp f exts (.dirUnreadable name stem ext2 size)).Sublist
        (searchEntry dp f exts (.dir name stem ext2 size contents)) ∧
    (∀ o ∈ searchEntry dp f exts (.dirUnreadable name stem ext2 size),
        o = object_was_found (dp ++ "/" ++ name) size) := by
  refine ⟨?_, ?_, ?_⟩
  · rw [searchList_append]
    simp only [searchList]
  · simp only [searchEntry]
    exact List.sublist_append_left _ _
  · intro o ho
    simp only [searchEntry] at ho
    split at ho
    · exact List.mem_singleton.mp ho
    · cases ho

theorem c4_unreadable_dir_skipped_witness :
    (⟨"/t/locked", none⟩ : MatchOutput) =
      object_was_found ("/t" ++ "/" ++ "locked") none :=
  (c4_unreadable_dir_skipped "/t" "lock" "locked" [] (some (some "locked"))
        none none [] [] []).2.2 ⟨"/t/locked", none⟩ (by decide)

/-- C5: a query is rejected iff the trimmed root is empty, or the trimmed
name and the split extension list are both empty; the rejected outcome of
the loop iteration runs no walk (it carries no count and no outputs) and
the loop restarts at the first prompt. -/
theorem c5_validation_rejects (raw_path raw_name raw_exts : String)
    (listing : Option (List Entry)) :
    main_iteration raw_path raw_name raw_exts listing = .rejected ↔
      (trim raw_path = "" ∨
        (trim raw_name = "" ∧ get_extensions (trim raw_exts) = [])) := by
  by_cases hcond : trim raw_path = "" ∨
      (trim raw_name = "" ∧ get_extensions (trim raw_exts) = [])
  · simp [main_iteration, get_search_data, get_input, hcond]
  · simp [main_iteration, get_search_data, get_input, hcond]

/-- C6: whether a matched file's metadata read fails (`size = none`) or
succeeds changes nothing about whether it is reported or how often it is
counted (the walk emits the same number of records either way, and the
counter is the number of emitted records); on failure only the size figure
is omitted from the emitted record, whose path is still reported.  The
same counting invariance holds for a matched directory. -/
theorem c6_metadata_failure_still_counted (dp f name : String)
    (exts : List String) (stem ext2 : OsComp) (bytes : Nat)
    (contents : List Entry) :
    (searchEntry dp f exts (.file name stem ext2 none)).length =
        (searchEntry dp f exts (.file name stem ext2 (some bytes))).length ∧
    (∀ o ∈ searchEntry dp f exts (.file name stem ext2 none),
        o.path = dp ++ "/" ++ name ∧ o.sizeMB = none) ∧
    (searchEntry dp f exts (.dir name stem ext2 none contents)).length =
        (searchEntry dp f exts
          (.dir name stem ext2 (some bytes) contents)).length := by
  refine ⟨?_, ?_, ?_⟩
  · by_cases h1 : f = "" ∧ os_str_to_str ext2 ∈ exts
    · simp [searchEntry, h1]
    · by_cases h2 : strContains (os_str_to_str stem) f = true ∧
          ((¬ exts = [] ∧ os_str_to_str ext2 ∈ exts) ∨ exts = []) <;>
        simp [searchEntry, h1, h2]
  · intro o ho
    simp only [searchEntry] at ho
    split at ho
    · rw [List.mem_singleton] at ho
      subst ho
      exact ⟨rfl, rfl⟩
    · split at ho
      · rw [List.mem_singleton] at ho
        subst ho
        exact ⟨rfl, rfl⟩
      · cases ho
  · by_cases h : exts = [] ∧ strContains (os_str_to_str stem) f = true <;>
      simp [searchEntry, h]

theorem c6_metadata_failure_still_counted_witness :
    (⟨"/t/a.log", none⟩ : MatchOutput).path = "/t" ++ "/" ++ "a.log" ∧
      (⟨"/t/a.log", none⟩ : MatchOutput).sizeMB = none :=
  (c6_metadata_failure_still_counted "/t" "" "a.log" ["log"]
        (some (some "a")) (some (some "log")) 5 []).2.1
    ⟨"/t/a.log", none⟩ (by decide)

/-- C7: every record emitted for an entry whose metadata read succeeded
carries `size = bytes / 1000000` in exact (decimal) megabytes, and a
2,000,000-byte file reports 2 MB.  The `f64` division of the source is
modelled exactly over `ℚ`; the division is by `10^6`, not `2^20`. -/
theorem c7_size_in_decimal_megabytes (dp f name : String)
    (exts : List String) (stem ext2 : OsComp) (bytes : Nat) :
    (∀ o ∈ searchEntry dp f exts (.file name stem ext2 (some bytes)),
        o.sizeMB = some ((bytes : ℚ) / 1000000)) ∧
    (print_path_info dp (some 2000000)).sizeMB = some 2 := by
  constructor
  · intro o ho
    simp only [searchEntry] at ho
    split at ho
    · rw [List.mem_singleton] at ho
      subst ho
      rfl
    · split at ho
      · rw [List.mem_singleton] at ho
        subst ho
        rfl
      · cases ho
  · simp only [print_path_info, FILE_SIZE_BASE, Option.map_some]
    norm_num

theorem c7_size_in_decimal_megabytes_witness :
    (object_was_found ("/t" ++ "/" ++ "big.bin") (some 2000000)).sizeMB =
      some ((2000000 : ℚ) / 1000000) :=
  (c7_size_in_decimal_megabytes "/t" "big" "big.bin" [] (some (some "big"))
        (some (some "bin")) 2000000).1
    (object_was_found ("/t" ++ "/" ++ "big.bin") (some 2000000))
    (by
      simp only [searchEntry]
      rw [if_neg (by decide), if_pos (by decide)]
      exact List.mem_singleton.mpr rfl)

/-- C8 counterexample: with the relative root `"t"` the walk reports
`"t/report.txt"`, which is not an absolute path — contradicting the claim
that the path printed for each match is absolute for every query. -/
theorem c8_counterexample :
    main_iteration "t" "report" ""
        (some [.file "report.txt" (some (some "report")) (some (some "txt"))
          none]) =
      .searched 1 [⟨"t" ++ "/" ++ "report.txt", none⟩] ∧
    isAbsolutePath ("t" ++ "/" ++ "report.txt") = false := by
  constructor
  · decide
  · decide

/-- C8 (amended): every reported match carries the path obtained by
joining the search root with the entry's location inside the tree, so the
printed path is absolute exactly when the (non-empty) search root is
absolute — in particular all printed paths are absolute whenever the
entered root is. -/
theorem c8_amended_path_absoluteness (dp f : String) (exts : List String)
    (listing : Option (List Entry)) (hdp : dp ≠ "") :
    ∀ o ∈ search_files dp f exts listing,
      isAbsolutePath o.path = isAbsolutePath dp := by
  intro o ho
  match listing with
  | none => cases ho
  | some es =>
      simp only [search_files] at ho
      obtain ⟨s, hs⟩ := searchList_path_shape dp f exts es o ho
      rw [hs, String.append_assoc, isAbsolutePath_append dp ("/" ++ s) hdp]

theorem c8_amended_path_absoluteness_witness :
    isAbsolutePath
        ((⟨"/t/report.txt", none⟩ : MatchOutput).path) =
      isAbsolutePath "/t" :=
  c8_amended_path_absoluteness "/t" "report" []
    (some [.file "report.txt" (some (some "report")) (some (some "txt"))
      none]) (by decide) ⟨"/t/report.txt", none⟩ (by decide)

/-- C9 counterexample: the entered root `"/TMP"` is already trimmed, yet
the query built from it carries root `"/tmp"` — the root is lowercased,
contradicting the claim that no case change is applied to it. -/
theorem c9_counterexample :
    get_search_data "/TMP" "x" "" = some ("/tmp", "x", []) ∧
      trim "/TMP" = "/TMP" ∧ ("/tmp" : String) ≠ "/TMP" := by
  refine ⟨by decide, by decide, by decide⟩

/-- C9 (amended): all three query components are case-normalized at
construction time: the search root passed to the walk is the entered line
trimmed and then lowercased, exactly like the name fragment, and the
extension tokens are the lowercased whitespace-split words. -/
theorem c9_amended_root_lowercased (p n e root nm : String)
    (exts : List String)
    (hq : get_search_data p n e = some (root, nm, exts)) :
    root = lower (trim p) ∧ nm = lower (trim n) ∧
      exts = get_extensions (trim e) := by
  obtain ⟨h1, h2, h3, -, -⟩ := get_search_data_eq_some hq
  exact ⟨h1, h2, h3⟩

theorem c9_amended_root_lowercased_witness :
    ("/tmp" : String) = lower (trim "/TMP") ∧
      ("x" : String) = lower (trim "x") ∧
      ([] : List String) = get_extensions (trim "") :=
  c9_amended_root_lowercased "/TMP" "x" "" "/tmp" "x" [] (by decide)

/-- C10: an absent or non-UTF-8 stem or extension collapses to the empty
string; a file whose stem collapsed is never reported under a non-empty
name fragment, and in extension-only mode (empty fragment, non-empty
extension set built by `get_extensions`, whose tokens are all non-empty) a
file whose extension is absent, non-UTF-8, or simply missing is never
reported. -/
theorem c10_missing_components (dp f name s : String) (exts : List String)
    (size : Option Nat) :
    (os_str_to_str none = "" ∧ os_str_to_str (some none) = "") ∧
    (∀ stem ext2 : OsComp, (stem = none ∨ stem = some none) → f ≠ "" →
        searchEntry dp f exts (.file name stem ext2 size) = []) ∧
    (∀ stem ext2 : OsComp, (ext2 = none ∨ ext2 = some none) → f = "" →
        exts = get_extensions s → exts ≠ [] →
        searchEntry dp f exts (.file name stem ext2 size) = []) := by
  refine ⟨⟨rfl, rfl⟩, ?_, ?_⟩
  · intro stem ext2 hstem hf
    have hstem0 : os_str_to_str stem = "" := by
      rcases hstem with rfl | rfl <;> rfl
    have hcon : strContains (os_str_to_str stem) f = false := by
      rw [hstem0]
      exact strContains_empty_hay hf
    simp [searchEntry, hf, hcon]
  · intro stem ext2 hext hf hexts hne
    have hext0 : os_str_to_str ext2 = "" := by
      rcases hext with rfl | rfl <;> rfl
    have hmem : os_str_to_str ext2 ∉ exts := by
      rw [hext0]
      intro hmem
      exact ne_empty_of_mem_get_extensions (hexts ▸ hmem) rfl
    simp [searchEntry, hf, hmem, hne]

theorem c10_missing_components_witness :
    searchEntry "/t" "doc" [] (.file "x" (some none) (some (some "txt"))
        none) = [] ∧
    searchEntry "/t" "" ["txt"] (.file "noext" (some (some "noext")) none
        none) = [] :=
  ⟨(c10_missing_components "/t" "doc" "x" "txt" [] none).2.1 (some none)
      (some (some "txt")) (Or.inr rfl) (by decide),
   (c10_missing_components "/t" "" "noext" "txt" ["txt"] none).2.2
      (some (some "noext")) none (Or.inl rfl) rfl (by decide) (by decide)⟩

end FileSearcher
